import Mathlib

/-!
Verification development for the allocation / weight-normalization core of the
market-backtest-streamlit repository (src/app_v3.py and src/app.py).

Python dicts are embedded as insertion-ordered association lists with unique
keys; weights are embedded as exact rationals (the source uses floats, whose
rounding drift the spec tolerates up to 0.1; the rational embedding computes
the same arithmetic exactly). Streamlit session state is embedded as an
explicit `AppState`, and each widget callback becomes a state-transition
function taking the widget's current values as arguments.
-/

namespace Alloc

/-! ## Python dict primitives (insertion-ordered association lists) -/

/-- Embeds Python `d.get(k)` / `d[k]` read: the value bound to the first
(equivalently, unique) occurrence of key `k`. -/
def dlookup {α β : Type} [DecidableEq α] : List (α × β) → α → Option β
  | [], _ => none
  | (k', v) :: d, k => if k' = k then some v else dlookup d k

/-- Embeds Python `k in d` for a dict. -/
def dcontains {α β : Type} [DecidableEq α] (d : List (α × β)) (k : α) : Bool :=
  (dlookup d k).isSome

/-- Embeds Python `d[k] = v`: updates the binding in place when the key is
present, appends the new binding otherwise (insertion order preserved). -/
def dset {α β : Type} [DecidableEq α] : List (α × β) → α → β → List (α × β)
  | [], k, v => [(k, v)]
  | (k', v') :: d, k, v => if k' = k then (k, v) :: d else (k', v') :: dset d k v

/-- Embeds Python `del d[k]` (keys are unique, so removing the first
occurrence removes the key). -/
def derase {α β : Type} [DecidableEq α] : List (α × β) → α → List (α × β)
  | [], _ => []
  | (k', v') :: d, k => if k' = k then d else (k', v') :: derase d k

/-- The key list of a dict, in insertion order. -/
def dkeys {α β : Type} (d : List (α × β)) : List α := d.map Prod.fst

/-- Embeds `sum(weights.values())`. -/
def wsum (w : List (String × ℚ)) : ℚ := (w.map Prod.snd).sum

/-! ## Python string primitives used by the handlers -/

/-- Whitespace characters removed by Python `str.strip()` (ASCII subset). -/
def isPySpace (c : Char) : Bool :=
  c == ' ' || c == '\t' || c == '\n' || c == '\r' ||
  c == Char.ofNat 11 || c == Char.ofNat 12

/-- Embeds Python `s.strip()`. -/
def strip (s : String) : String :=
  ⟨((s.data.dropWhile isPySpace).reverse.dropWhile isPySpace).reverse⟩

/-- Embeds Python `str.upper()` on ASCII characters. -/
def upperChar (c : Char) : Char :=
  if 97 ≤ c.toNat ∧ c.toNat ≤ 122 then Char.ofNat (c.toNat - 32) else c

/-- Embeds Python `s.upper()` (the handlers only feed it ASCII text). -/
def upper (s : String) : String := ⟨s.data.map upperChar⟩

/-! ## app_v3.py: validation, state, normalize_weights, handle_ticker_change -/

/-- Embeds `validate_ticker` (app_v3.py lines 39-41): the text matches the
regex `[A-Z]{1,5}` anchored on both sides, i.e. one to five uppercase
ASCII letters. -/
def validate_ticker (t : String) : Bool :=
  decide (1 ≤ t.data.length) && decide (t.data.length ≤ 5) &&
    t.data.all (fun c => decide (65 ≤ c.toNat) && decide (c.toNat ≤ 90))

/-- Embeds one entry of `st.session_state.ticker_data` (app_v3.py lines
76-80): the per-slot record `{'enabled': ..., 'value': ..., 'valid': ...}`. -/
structure TickerData where
  enabled : Bool
  value : String
  valid : Bool
deriving DecidableEq

/-- Embeds the session state of app_v3.py: `ticker_data` (dict from slot
index), `valid_tickers` (list), `weights` (dict ticker -> weight). -/
structure AppState where
  ticker_data : List (Nat × TickerData)
  valid_tickers : List String
  weights : List (String × ℚ)
deriving DecidableEq

/-- The error surfaced by `st.error(f"Invalid ticker format: ...")`
(app_v3.py line 73); the spec names it `InvalidTickerFormat`. -/
inductive AppError where
  | invalidTickerFormat (t : String)
deriving DecidableEq

/-- Embeds the body of `normalize_weights` (app_v3.py lines 43-51) as a
function of the two session fields it reads: if the total is zero, rebuild
the dict as an equal split over `valid_tickers`; otherwise rescale every
existing entry by `100 / total`. -/
def normalizeW (valid_tickers : List String) (weights : List (String × ℚ)) :
    List (String × ℚ) :=
  if wsum weights = 0 then
    let equal_weight : ℚ :=
      if valid_tickers ≠ [] then 100 / valid_tickers.length else 0
    valid_tickers.foldl (fun d t => dset d t equal_weight) []
  else
    weights.map (fun p => (p.1, p.2 / wsum weights * 100))

/-- Embeds `normalize_weights` acting on the whole session state. -/
def normalize_weights (s : AppState) : AppState :=
  { s with weights := normalizeW s.valid_tickers s.weights }

/-- Embeds the "Clear invalid data when ticker changes" block of
`handle_ticker_change` (app_v3.py lines 58-63): when the incoming ticker
differs from the slot's stored value, remove the incoming ticker from
`valid_tickers` (if present) and delete it from `weights` (if present). -/
def clear_stage (s : AppState) (ticker old : String) : AppState :=
  if ticker ≠ old then
    { s with valid_tickers := s.valid_tickers.erase ticker,
             weights := derase s.weights ticker }
  else s

/-- Embeds the accept path of the "Validate new ticker" block (app_v3.py
lines 67-71): append the ticker to `valid_tickers` unless already there, and
insert weight 0 unless a weight entry already exists. -/
def accept_stage (s : AppState) (ticker : String) : AppState :=
  { s with
      valid_tickers :=
        if ticker ∈ s.valid_tickers then s.valid_tickers
        else s.valid_tickers ++ [ticker],
      weights :=
        if dcontains s.weights ticker then s.weights
        else dset s.weights ticker 0 }

/-- Embeds the "Validate new ticker" block (app_v3.py lines 65-73): only an
enabled slot with nonempty text is processed; valid text is committed via
`accept_stage`, invalid text surfaces the format error. -/
def validate_stage (s : AppState) (ticker : String) (enabled : Bool) :
    AppState × List AppError :=
  if enabled = true ∧ ticker ≠ "" then
    if validate_ticker ticker then (accept_stage s ticker, [])
    else (s, [AppError.invalidTickerFormat ticker])
  else (s, [])

/-- Embeds the "Store ticker state" block (app_v3.py lines 76-80). -/
def store_stage (s : AppState) (i : Nat) (ticker : String) (enabled : Bool) :
    AppState :=
  { s with
      ticker_data :=
        dset s.ticker_data i
          ⟨enabled, ticker, if enabled then validate_ticker ticker else false⟩ }

/-- Embeds `handle_ticker_change` (app_v3.py lines 53-82). The widget values
`raw` (the slot's text) and `enabled` (the slot's checkbox) are passed as
arguments; `old` is `ticker_data.get(index, {}).get('value', '')`. Returns
the new state and the list of surfaced errors. -/
def handle_ticker_change (s : AppState) (i : Nat) (raw : String)
    (enabled : Bool) : AppState × List AppError :=
  let ticker := upper (strip raw)
  let old := ((dlookup s.ticker_data i).map TickerData.value).getD ""
  let s1 := clear_stage s ticker old
  let se := validate_stage s1 ticker enabled
  (normalize_weights (store_stage se.1 i ticker enabled), se.2)

/-- Clamp a weight into the number-input widget's bounds [0, 100]. -/
def clampQ (v : ℚ) : ℚ := if v < 0 then 0 else if v > 100 then 100 else v

/-- Embeds a discrete weight edit in app_v3.py: the number_input widget
(bounded to [0,100], line 112-122) stores its value into
`weights[ticker]` (line 123) and the script run then calls
`normalize_weights` (on_change, and again at line 136), so the handler's
observable effect is store-then-renormalize. -/
def set_weight (s : AppState) (t : String) (v : ℚ) : AppState :=
  normalize_weights { s with weights := dset s.weights t (clampQ v) }

/-- The initial session state of app_v3.py (lines 10-15): all three fields
empty. -/
def initState : AppState := ⟨[], [], []⟩

/-- Reachability: the states the app_v3.py session can be in after any
sequence of handler invocations starting from the empty initial state. -/
inductive Reachable : AppState → Prop
  | start : Reachable initState
  | ticker (s : AppState) (i : Nat) (raw : String) (en : Bool) :
      Reachable s → Reachable (handle_ticker_change s i raw en).1
  | weight (s : AppState) (t : String) (v : ℚ) :
      Reachable s → Reachable (set_weight s t v)

/-! ## app.py: weight reset block and update_weight_from_text -/

/-- Embeds the "Initialize or reset weights when tickers change" block of
app.py (lines 72-80): whenever the tuple of currently selected tickers
differs from the stored `prev_tickers` (or none is stored), the whole
weights dict is rebuilt as an equal split over the selected tickers; returns
the new weights and the new `prev_tickers`. -/
def reset_weights_on_ticker_change (prev_tickers : Option (List String))
    (selected_tickers : List String) (weights : List (String × ℚ)) :
    List (String × ℚ) × Option (List String) :=
  if prev_tickers ≠ some selected_tickers then
    if 0 < selected_tickers.length then
      (selected_tickers.foldl
        (fun d t => dset d t (100 / selected_tickers.length)) [],
       some selected_tickers)
    else ([], some selected_tickers)
  else (weights, prev_tickers)

/-- Embeds `update_weight_from_text` (app.py lines 86-96). The text widget's
content is given already parsed: `some v` when Python `float(text)` succeeds
with value `v`, `none` when it raises (the `except` branch). Returns the new
weights dict, the value written to the slider widget (if any), and the value
written back into the text widget (if any). -/
def update_weight_from_text (weights : List (String × ℚ)) (ticker : String)
    (parsed : Option ℚ) : List (String × ℚ) × Option ℚ × Option ℚ :=
  match parsed with
  | some v =>
      let value := if v < 0 then 0 else if v > 100 then 100 else v
      (dset weights ticker value, some value, none)
  | none => (weights, none, some ((dlookup weights ticker).getD 0))

/-! ## Dictionary lemmas -/

theorem dkeys_nil {α β : Type} : dkeys ([] : List (α × β)) = [] := rfl

theorem dkeys_cons {α β : Type} (p : α × β) (d : List (α × β)) :
    dkeys (p :: d) = p.1 :: dkeys d := rfl

theorem dlookup_eq_none_iff {α β : Type} [DecidableEq α] (d : List (α × β)) (k : α) :
    dlookup d k = none ↔ k ∉ dkeys d := by
  induction d with
  | nil => simp [dlookup, dkeys_nil]
  | cons p d ih =>
    obtain ⟨k', v⟩ := p
    by_cases h : k' = k
    · subst h
      simp [dlookup, dkeys_cons]
    · simp [dlookup, h, dkeys_cons, ih, Ne.symm h]

theorem dlookup_isSome_iff {α β : Type} [DecidableEq α] (d : List (α × β)) (k : α) :
    (dlookup d k).isSome = true ↔ k ∈ dkeys d := by
  rcases hd : dlookup d k with _ | v
  · simp [(dlookup_eq_none_iff d k).mp hd]
  · simp only [Option.isSome_some, true_iff]
    by_contra hk
    rw [(dlookup_eq_none_iff d k).mpr hk] at hd
    exact Option.noConfusion hd

theorem mem_dkeys_of_dlookup {α β : Type} [DecidableEq α] {d : List (α × β)} {k : α}
    {v : β} (h : dlookup d k = some v) : k ∈ dkeys d := by
  rw [← dlookup_isSome_iff, h]; rfl

theorem dset_eq_append {α β : Type} [DecidableEq α] (d : List (α × β)) (k : α) (v : β)
    (h : k ∉ dkeys d) : dset d k v = d ++ [(k, v)] := by
  induction d with
  | nil => rfl
  | cons p d ih =>
    obtain ⟨k', v'⟩ := p
    rw [dkeys_cons, List.mem_cons] at h
    push_neg at h
    simp [dset, Ne.symm h.1, ih h.2]

theorem derase_eq_self {α β : Type} [DecidableEq α] (d : List (α × β)) (k : α)
    (h : k ∉ dkeys d) : derase d k = d := by
  induction d with
  | nil => rfl
  | cons p d ih =>
    obtain ⟨k', v'⟩ := p
    rw [dkeys_cons, List.mem_cons] at h
    push_neg at h
    simp [derase, Ne.symm h.1, ih h.2]

theorem dlookup_dset_self {α β : Type} [DecidableEq α] (d : List (α × β)) (k : α)
    (v : β) : dlookup (dset d k v) k = some v := by
  induction d with
  | nil => simp [dset, dlookup]
  | cons p d ih =>
    obtain ⟨k', v'⟩ := p
    by_cases h : k' = k <;> simp [dset, dlookup, h, ih]

theorem dlookup_dset_ne {α β : Type} [DecidableEq α] (d : List (α × β)) {k k' : α}
    (v : β) (h : k' ≠ k) : dlookup (dset d k v) k' = dlookup d k' := by
  induction d with
  | nil => simp [dset, dlookup, Ne.symm h]
  | cons p d ih =>
    obtain ⟨k'', v''⟩ := p
    by_cases h2 : k'' = k <;> simp [dset, dlookup, h2, Ne.symm h, ih]

theorem dlookup_append_of_none {α β : Type} [DecidableEq α] {a : List (α × β)}
    (b : List (α × β)) {k : α} (h : dlookup a k = none) :
    dlookup (a ++ b) k = dlookup b k := by
  induction a with
  | nil => rfl
  | cons p a ih =>
    obtain ⟨k', v⟩ := p
    by_cases h2 : k' = k
    · simp [dlookup, h2] at h
    · simp [dlookup, h2] at h ⊢
      exact ih h

theorem dlookup_append_of_some {α β : Type} [DecidableEq α] {a : List (α × β)}
    (b : List (α × β)) {k : α} {v : β} (h : dlookup a k = some v) :
    dlookup (a ++ b) k = some v := by
  induction a with
  | nil => simp [dlookup] at h
  | cons p a ih =>
    obtain ⟨k', v'⟩ := p
    by_cases h2 : k' = k <;> simp [dlookup, h2] at h ⊢
    · exact h
    · exact ih h

theorem dlookup_map_value {α β γ : Type} [DecidableEq α] (d : List (α × β))
    (f : β → γ) (k : α) :
    dlookup (d.map (fun p => (p.1, f p.2))) k = (dlookup d k).map f := by
  induction d with
  | nil => rfl
  | cons p d ih =>
    obtain ⟨k', v⟩ := p
    by_cases h : k' = k <;> simp [dlookup, h, ih]

theorem dkeys_map_value {α β γ : Type} (d : List (α × β)) (f : β → γ) :
    dkeys (d.map (fun p => (p.1, f p.2))) = dkeys d := by
  simp [dkeys, List.map_map]

theorem dkeys_append {α β : Type} (a b : List (α × β)) :
    dkeys (a ++ b) = dkeys a ++ dkeys b := by
  simp [dkeys]

theorem dlookup_map_const {α β : Type} [DecidableEq α] {ts : List α} {k : α}
    (v : β) (h : k ∈ ts) :
    dlookup (ts.map (fun t => (t, v))) k = some v := by
  induction ts with
  | nil => simp at h
  | cons t ts ih =>
    by_cases h2 : t = k
    · simp [dlookup, h2]
    · rcases List.mem_cons.mp h with h3 | h3
      · exact absurd h3.symm h2
      · simp [dlookup, h2, ih h3]

theorem foldl_dset_const {α β : Type} [DecidableEq α] (v : β) (ts : List α) :
    ∀ acc : List (α × β), ts.Nodup → (∀ t ∈ ts, t ∉ dkeys acc) →
      ts.foldl (fun d t => dset d t v) acc = acc ++ ts.map (fun t => (t, v)) := by
  induction ts with
  | nil => intro acc _ _; simp
  | cons t ts ih =>
    intro acc hnd hdisj
    have h1 : t ∉ dkeys acc := hdisj t (List.mem_cons_self t ts)
    have hset : dset acc t v = acc ++ [(t, v)] := dset_eq_append acc t v h1
    simp only [List.foldl_cons, hset]
    rw [ih (acc ++ [(t, v)]) (List.nodup_cons.mp hnd).2 ?_]
    · simp
    · intro u hu
      have hne : u ≠ t := by
        rintro rfl
        exact (List.nodup_cons.mp hnd).1 hu
      have : u ∉ dkeys acc := hdisj u (List.mem_cons_of_mem _ hu)
      simp [dkeys_append, dkeys_cons, dkeys_nil, this, hne]

theorem foldl_dset_const_nil {α β : Type} [DecidableEq α] (v : β) (ts : List α)
    (hnd : ts.Nodup) :
    ts.foldl (fun d t => dset d t v) [] = ts.map (fun t => (t, v)) := by
  rw [foldl_dset_const v ts [] hnd (by simp [dkeys])]
  simp

/-! ## Weight-sum lemmas -/

theorem wsum_nil : wsum [] = 0 := rfl

theorem wsum_cons (p : String × ℚ) (w : List (String × ℚ)) :
    wsum (p :: w) = p.2 + wsum w := by
  simp [wsum]

theorem wsum_append (a b : List (String × ℚ)) : wsum (a ++ b) = wsum a + wsum b := by
  simp [wsum]

theorem wsum_map_scale (w : List (String × ℚ)) (c : ℚ) :
    wsum (w.map (fun p => (p.1, p.2 / c * 100))) = wsum w / c * 100 := by
  induction w with
  | nil => simp [wsum]
  | cons p w ih =>
    simp only [List.map_cons, wsum_cons] at *
    rw [ih]
    ring

theorem wsum_map_const (ts : List String) (v : ℚ) :
    wsum (ts.map (fun t => (t, v))) = ts.length * v := by
  induction ts with
  | nil => simp [wsum]
  | cons t ts ih =>
    simp only [List.map_cons, wsum_cons, List.length_cons] at *
    rw [ih]
    push_cast
    ring

theorem map_div_100_mul_100 (w : List (String × ℚ)) :
    (w.map fun p => (p.1, p.2 / 100 * 100)) = w := by
  induction w with
  | nil => rfl
  | cons p w ih =>
    simp only [List.map_cons, ih]
    rw [div_mul_cancel₀ p.2 (by norm_num : (100 : ℚ) ≠ 0)]

/-! ## Lemmas about normalize_weights -/

theorem normalizeW_of_ne (valid : List String) (w : List (String × ℚ))
    (h : wsum w ≠ 0) :
    normalizeW valid w = w.map (fun p => (p.1, p.2 / wsum w * 100)) := by
  unfold normalizeW
  rw [if_neg h]

theorem normalizeW_zero_nodup (valid : List String) (w : List (String × ℚ))
    (hnd : valid.Nodup) (h0 : wsum w = 0) :
    normalizeW valid w =
      valid.map (fun t => (t, if valid ≠ [] then (100 : ℚ) / valid.length else 0)) := by
  unfold normalizeW
  rw [if_pos h0]
  exact foldl_dset_const _ valid [] hnd (by simp [dkeys_nil])

theorem normalizeW_of_sum_100 (valid : List String) (w : List (String × ℚ))
    (h : wsum w = 100) : normalizeW valid w = w := by
  rw [normalizeW_of_ne valid w (by rw [h]; norm_num), h, map_div_100_mul_100]

theorem normalizeW_nil_or_sum_100 (valid : List String) (w : List (String × ℚ))
    (hnd : valid.Nodup) :
    (valid = [] ∧ normalizeW valid w = []) ∨ wsum (normalizeW valid w) = 100 := by
  by_cases h0 : wsum w = 0
  · rcases eq_or_ne valid [] with hv | hv
    · left
      subst hv
      exact ⟨rfl, by rw [normalizeW_zero_nodup [] w hnd h0]; rfl⟩
    · right
      rw [normalizeW_zero_nodup valid w hnd h0, if_pos hv, wsum_map_const]
      have hlen : (valid.length : ℚ) ≠ 0 := by
        have := List.length_pos.mpr hv
        positivity
      field_simp
  · right
    rw [normalizeW_of_ne valid w h0, wsum_map_scale, div_self h0, one_mul]

theorem normalize_weights_valid_eq (s : AppState) :
    (normalize_weights s).valid_tickers = s.valid_tickers := rfl

theorem normalize_weights_sum (X : AppState) (hnd : X.valid_tickers.Nodup)
    (hne : (normalize_weights X).weights ≠ []) :
    wsum (normalize_weights X).weights = 100 := by
  rcases normalizeW_nil_or_sum_100 X.valid_tickers X.weights hnd with ⟨_, h⟩ | h
  · exact absurd h hne
  · exact h

/-! ## Structural lemmas about handle_ticker_change -/

/-- The state `handle_ticker_change` passes to its final `normalize_weights`
call: the clear, validate and store stages applied in order. -/
def pre_state (s : AppState) (i : Nat) (raw : String) (en : Bool) : AppState :=
  store_stage
    (validate_stage
      (clear_stage s (upper (strip raw))
        (((dlookup s.ticker_data i).map TickerData.value).getD ""))
      (upper (strip raw)) en).1
    i (upper (strip raw)) en

theorem handle_fst_eq (s : AppState) (i : Nat) (raw : String) (en : Bool) :
    (handle_ticker_change s i raw en).1 = normalize_weights (pre_state s i raw en) := rfl

theorem clear_stage_nodup {s : AppState} (t o : String)
    (hnd : s.valid_tickers.Nodup) : (clear_stage s t o).valid_tickers.Nodup := by
  unfold clear_stage
  split
  · exact hnd.erase t
  · exact hnd

theorem accept_stage_nodup {s : AppState} (t : String)
    (hnd : s.valid_tickers.Nodup) : (accept_stage s t).valid_tickers.Nodup := by
  unfold accept_stage
  dsimp only
  split
  · exact hnd
  · rename_i h
    simp [List.nodup_append, hnd, h]

theorem validate_stage_nodup {s : AppState} (t : String) (en : Bool)
    (hnd : s.valid_tickers.Nodup) : (validate_stage s t en).1.valid_tickers.Nodup := by
  unfold validate_stage
  split
  · split
    · exact accept_stage_nodup t hnd
    · exact hnd
  · exact hnd

theorem pre_state_nodup (s : AppState) (i : Nat) (raw : String) (en : Bool)
    (hnd : s.valid_tickers.Nodup) : (pre_state s i raw en).valid_tickers.Nodup :=
  validate_stage_nodup _ _ (clear_stage_nodup _ _ hnd)

theorem handle_nodup (s : AppState) (i : Nat) (raw : String) (en : Bool)
    (hnd : s.valid_tickers.Nodup) :
    (handle_ticker_change s i raw en).1.valid_tickers.Nodup := by
  rw [handle_fst_eq]
  exact pre_state_nodup s i raw en hnd

/-- Every reachable app_v3 state has duplicate-free `valid_tickers`, and its
weights dict, when non-empty, sums exactly to 100. -/
theorem reachable_nodup_and_sum (s : AppState) (h : Reachable s) :
    s.valid_tickers.Nodup ∧ (s.weights ≠ [] → wsum s.weights = 100) := by
  induction h with
  | start => exact ⟨List.nodup_nil, fun hne => absurd rfl hne⟩
  | ticker s i raw en _ ih =>
    refine ⟨handle_nodup s i raw en ih.1, fun hne => ?_⟩
    rw [handle_fst_eq] at hne ⊢
    exact normalize_weights_sum _ (pre_state_nodup s i raw en ih.1) hne
  | weight s t v _ ih =>
    refine ⟨ih.1, fun hne => ?_⟩
    exact normalize_weights_sum _ ih.1 hne

theorem handle_snd_eq (s : AppState) (i : Nat) (raw : String) (en : Bool) :
    (handle_ticker_change s i raw en).2 =
      (validate_stage
        (clear_stage s (upper (strip raw))
          (((dlookup s.ticker_data i).map TickerData.value).getD ""))
        (upper (strip raw)) en).2 := rfl

theorem normalize_weights_data_eq (s : AppState) :
    (normalize_weights s).ticker_data = s.ticker_data := rfl

theorem clear_stage_of_not_mem (s : AppState) (t o : String)
    (hv : t ∉ s.valid_tickers) (hw : t ∉ dkeys s.weights) :
    clear_stage s t o = s := by
  unfold clear_stage
  split
  · rw [List.erase_of_not_mem hv, derase_eq_self _ _ hw]
  · rfl

theorem validate_stage_valid_true (s : AppState) (t : String)
    (hval : validate_ticker t = true) (ht : t ≠ "") :
    validate_stage s t true = (accept_stage s t, []) := by
  unfold validate_stage
  rw [if_pos ⟨rfl, ht⟩, if_pos hval]

theorem validate_stage_invalid (s : AppState) (t : String)
    (hval : validate_ticker t = false) (ht : t ≠ "") :
    validate_stage s t true = (s, [AppError.invalidTickerFormat t]) := by
  unfold validate_stage
  rw [if_pos ⟨rfl, ht⟩, if_neg (by simp [hval])]

theorem accept_stage_of_not_mem (s : AppState) (t : String)
    (hv : t ∉ s.valid_tickers) (hw : t ∉ dkeys s.weights) :
    accept_stage s t =
      { s with valid_tickers := s.valid_tickers ++ [t],
               weights := s.weights ++ [(t, 0)] } := by
  have h2 : dcontains s.weights t = false := by
    rw [← Bool.not_eq_true, dcontains, dlookup_isSome_iff]
    exact hw
  simp [accept_stage, hv, h2, dset_eq_append _ _ _ hw]

/-! ## Claim C1 -/

/-- C1: Sum-to-100 invariant: in every reachable state of the app_v3 session
whose weights dict is non-empty, the sum of all weights differs from 100 by
at most 0.1 (in the exact-rational embedding the sum is exactly 100). Every
handler ends in `normalize_weights`, so this holds after every handler
(slot enable/disable, ticker edit, weight edit) returns. -/
theorem c1_sum_to_100_invariant (s : AppState) (h : Reachable s)
    (hne : s.weights ≠ []) : |wsum s.weights - 100| ≤ 1 / 10 := by
  rw [(reachable_nodup_and_sum s h).2 hne]
  norm_num

/-- Witness for C1: the reachable state obtained by committing "AAPL" into
slot 0 of the empty initial state has a non-empty weights dict and satisfies
the invariant. -/
theorem c1_sum_to_100_invariant_witness :
    |wsum (handle_ticker_change initState 0 "AAPL" true).1.weights - 100| ≤ 1 / 10 := by
  apply c1_sum_to_100_invariant _ (Reachable.ticker initState 0 "AAPL" true Reachable.start)
  norm_num +decide [handle_ticker_change, clear_stage, validate_stage, accept_stage,
    store_stage, normalize_weights, normalizeW, wsum, dset, derase, dlookup, dcontains,
    initState, (by decide : upper (strip "AAPL") = "AAPL")]

/-! ## Claim C4 -/

/-- C4: Equal split on zero total: for a state whose non-empty weights dict
sums to 0 and whose duplicate-free valid-ticker list enumerates exactly the
dict's keys (registry consistency, as in every reachable state),
`normalize_weights` assigns every entry the weight 100/n where n is the
number of entries, and the resulting sum is 100. -/
theorem c4_equal_split_on_zero_total (s : AppState)
    (hperm : s.valid_tickers.Perm (dkeys s.weights))
    (hnd : s.valid_tickers.Nodup)
    (hne : s.weights ≠ [])
    (h0 : wsum s.weights = 0) :
    (∀ k ∈ dkeys s.weights,
      dlookup (normalize_weights s).weights k = some ((100 : ℚ) / s.weights.length)) ∧
    wsum (normalize_weights s).weights = 100 := by
  have hvne : s.valid_tickers ≠ [] := by
    intro hv
    rw [hv] at hperm
    have hk : dkeys s.weights = [] := hperm.symm.eq_nil
    rw [dkeys, List.map_eq_nil_iff] at hk
    exact hne hk
  have hlen : s.valid_tickers.length = s.weights.length := by
    simpa [dkeys] using hperm.length_eq
  have hw : (normalize_weights s).weights =
      s.valid_tickers.map (fun t => (t, (100 : ℚ) / s.valid_tickers.length)) := by
    show normalizeW s.valid_tickers s.weights = _
    rw [normalizeW_zero_nodup _ _ hnd h0, if_pos hvne]
  constructor
  · intro k hk
    rw [hw, dlookup_map_const _ (hperm.mem_iff.mpr hk), hlen]
  · rw [hw, wsum_map_const]
    have hq : (s.valid_tickers.length : ℚ) ≠ 0 :=
      Nat.cast_ne_zero.mpr (by simpa [List.length_eq_zero] using hvne)
    field_simp

/-- Witness for C4 at the state with valid tickers A, B, C and all-zero
weights: entry A gets 100/3 and the new sum is 100. -/
theorem c4_equal_split_on_zero_total_witness :
    dlookup (normalize_weights ⟨[], ["A", "B", "C"], [("A", 0), ("B", 0), ("C", 0)]⟩).weights
      "A" = some ((100 : ℚ) / 3) ∧
    wsum (normalize_weights ⟨[], ["A", "B", "C"], [("A", 0), ("B", 0), ("C", 0)]⟩).weights
      = 100 := by
  have h := c4_equal_split_on_zero_total
    ⟨[], ["A", "B", "C"], [("A", 0), ("B", 0), ("C", 0)]⟩
    (by decide) (by decide) (by simp) (by norm_num [wsum])
  refine ⟨?_, h.2⟩
  have h1 := h.1 "A" (by decide)
  simpa using h1

/-! ## Claim C9 -/

/-- C9: Renormalize is idempotent: applying `normalize_weights` twice yields
the same weights as applying it once, for every state whose valid-ticker
list is duplicate-free (an invariant of all reachable states); in the
exact-rational embedding the fixed point is exact rather than up to float
epsilon. -/
theorem c9_renormalize_idempotent (s : AppState) (hnd : s.valid_tickers.Nodup) :
    (normalize_weights (normalize_weights s)).weights =
      (normalize_weights s).weights := by
  show normalizeW s.valid_tickers (normalizeW s.valid_tickers s.weights) =
    normalizeW s.valid_tickers s.weights
  rcases normalizeW_nil_or_sum_100 s.valid_tickers s.weights hnd with ⟨hv, hw⟩ | h
  · rw [hw, hv]
    simp [normalizeW, wsum_nil]
  · exact normalizeW_of_sum_100 _ _ h

/-- Witness for C9 at a one-entry state with weight 40. -/
theorem c9_renormalize_idempotent_witness :
    (normalize_weights (normalize_weights ⟨[], ["A"], [("A", 40)]⟩)).weights =
      (normalize_weights ⟨[], ["A"], [("A", 40)]⟩).weights :=
  c9_renormalize_idempotent ⟨[], ["A"], [("A", 40)]⟩ (by decide)

/-! ## Claim C10 -/

/-- C10: the two branches of `normalize_weights` treat the key set of the
weights dict asymmetrically: with nonzero total the key set is preserved
exactly (every entry — including entries absent from the valid-ticker list —
is kept and rescaled by 100/total), whereas with zero total the key set is
replaced by exactly the current valid-ticker list. -/
theorem c10_normalize_branch_asymmetry (s : AppState)
    (hnd : s.valid_tickers.Nodup) :
    (wsum s.weights ≠ 0 →
      dkeys (normalize_weights s).weights = dkeys s.weights ∧
      ∀ k v, dlookup s.weights k = some v →
        dlookup (normalize_weights s).weights k = some (v / wsum s.weights * 100)) ∧
    (wsum s.weights = 0 →
      dkeys (normalize_weights s).weights = s.valid_tickers) := by
  constructor
  · intro h
    constructor
    · show dkeys (normalizeW s.valid_tickers s.weights) = dkeys s.weights
      rw [normalizeW_of_ne _ _ h, dkeys_map_value _ (fun x => x / wsum s.weights * 100)]
    · intro k v hkv
      show dlookup (normalizeW s.valid_tickers s.weights) k = _
      rw [normalizeW_of_ne _ _ h,
        dlookup_map_value _ (fun x => x / wsum s.weights * 100), hkv]
      rfl
  · intro h
    show dkeys (normalizeW s.valid_tickers s.weights) = s.valid_tickers
    rw [normalizeW_zero_nodup _ _ hnd h]
    simp [dkeys, List.map_map, Function.comp_def]

/-- Witness for C10: with nonzero total a stale key X (absent from the
valid-ticker list) is kept; with zero total the key set becomes exactly the
valid-ticker list, dropping X. -/
theorem c10_normalize_branch_asymmetry_witness :
    dkeys (normalize_weights ⟨[], ["A"], [("X", 50), ("A", 50)]⟩).weights = ["X", "A"] ∧
    dkeys (normalize_weights ⟨[], ["A"], [("X", 0)]⟩).weights = ["A"] := by
  constructor
  · have h := (c10_normalize_branch_asymmetry ⟨[], ["A"], [("X", 50), ("A", 50)]⟩
      (by decide)).1 (by norm_num [wsum])
    simpa [dkeys] using h.1
  · exact (c10_normalize_branch_asymmetry ⟨[], ["A"], [("X", 0)]⟩
      (by decide)).2 (by norm_num [wsum])

/-! ## Claim C5 -/

/-- C5 counterexample: the claim's own input "abcde" is NOT rejected. From a
state with slot 0 enabled and empty, setSlotText(0, "abcde") normalizes the
text to "ABCDE", which matches the 1-5-uppercase-letters pattern, so the
handler surfaces no error, commits the Symbol ABCDE, and changes the
allocations map from empty to ABCDE with weight 100. -/
theorem c5_claimed_input_is_accepted :
    (handle_ticker_change ⟨[(0, ⟨true, "", false⟩)], [], []⟩ 0 "abcde" true).2 = [] ∧
    dlookup (handle_ticker_change ⟨[(0, ⟨true, "", false⟩)], [], []⟩ 0 "abcde" true).1.ticker_data 0
      = some ⟨true, "ABCDE", true⟩ ∧
    (handle_ticker_change ⟨[(0, ⟨true, "", false⟩)], [], []⟩ 0 "abcde" true).1.weights
      = [("ABCDE", 100)] := by
  refine ⟨?_, ?_, ?_⟩ <;>
    norm_num +decide [handle_ticker_change, clear_stage, validate_stage, accept_stage,
      store_stage, normalize_weights, normalizeW, wsum, dset, derase, dlookup, dcontains,
      (by decide : upper (strip "abcde") = "ABCDE")]

/-- C5 amended: for input whose trimmed-and-uppercased form is nonempty and
genuinely fails the 1-5-uppercase-letters pattern (e.g. "abc1e", unlike the
claim's "abcde" which uppercases to the valid Symbol ABCDE), an enabled
slot's text edit commits no Symbol, surfaces InvalidTickerFormat, and leaves
the weights dict unchanged — provided, as in every reachable state, the
invalid text is not registered (it cannot be, only validated text is) and
the state is normalized (weights sum to 100, or weights and valid tickers
are both empty). -/
theorem c5_invalid_input_rejected (s : AppState) (i : Nat) (raw : String)
    (ht : upper (strip raw) ≠ "")
    (hval : validate_ticker (upper (strip raw)) = false)
    (hv : upper (strip raw) ∉ s.valid_tickers)
    (hw : upper (strip raw) ∉ dkeys s.weights)
    (hsum : wsum s.weights = 100 ∨ (s.weights = [] ∧ s.valid_tickers = [])) :
    (handle_ticker_change s i raw true).2 =
      [AppError.invalidTickerFormat (upper (strip raw))] ∧
    dlookup (handle_ticker_change s i raw true).1.ticker_data i =
      some ⟨true, upper (strip raw), false⟩ ∧
    (handle_ticker_change s i raw true).1.weights = s.weights := by
  have hpre : pre_state s i raw true =
      { s with ticker_data := dset s.ticker_data i ⟨true, upper (strip raw), false⟩ } := by
    unfold pre_state
    rw [clear_stage_of_not_mem s _ _ hv hw, validate_stage_invalid s _ hval ht]
    unfold store_stage
    simp [hval]
  refine ⟨?_, ?_, ?_⟩
  · rw [handle_snd_eq, clear_stage_of_not_mem s _ _ hv hw,
      validate_stage_invalid s _ hval ht]
  · rw [handle_fst_eq, normalize_weights_data_eq, hpre]
    exact dlookup_dset_self _ _ _
  · rw [handle_fst_eq, hpre]
    show normalizeW s.valid_tickers s.weights = s.weights
    rcases hsum with h | ⟨h1, h2⟩
    · exact normalizeW_of_sum_100 _ _ h
    · rw [h1, h2]
      simp [normalizeW, wsum_nil]

/-- Witness for C5 (amended) at the empty initial state with input "abc1e". -/
theorem c5_invalid_input_rejected_witness :
    (handle_ticker_change initState 0 "abc1e" true).2 =
      [AppError.invalidTickerFormat (upper (strip "abc1e"))] ∧
    dlookup (handle_ticker_change initState 0 "abc1e" true).1.ticker_data 0 =
      some ⟨true, upper (strip "abc1e"), false⟩ ∧
    (handle_ticker_change initState 0 "abc1e" true).1.weights = initState.weights :=
  c5_invalid_input_rejected initState 0 "abc1e" (by decide) (by decide) (by decide)
    (by decide) (Or.inr ⟨rfl, rfl⟩)

/-! ## Claim C6 -/

/-- C6: validation accepts and commits: with slot 0 enabled,
setSlotText(0, " aapl ") commits the Symbol AAPL (trim then uppercase), and
when no allocation entry for AAPL exists (and AAPL is not registered), a new
entry with weight 0 is appended and the dict is then renormalized; if it was
the only entry (empty prior state) its weight becomes 100. -/
theorem c6_validation_accepts_and_commits (s : AppState)
    (hv : "AAPL" ∉ s.valid_tickers) (hw : "AAPL" ∉ dkeys s.weights) :
    (handle_ticker_change s 0 " aapl " true).2 = [] ∧
    dlookup (handle_ticker_change s 0 " aapl " true).1.ticker_data 0 =
      some ⟨true, "AAPL", true⟩ ∧
    (handle_ticker_change s 0 " aapl " true).1.weights =
      normalizeW (s.valid_tickers ++ ["AAPL"]) (s.weights ++ [("AAPL", 0)]) ∧
    (s.weights = [] → s.valid_tickers = [] →
      (handle_ticker_change s 0 " aapl " true).1.weights = [("AAPL", 100)]) := by
  have hu : upper (strip " aapl ") = "AAPL" := by decide
  have hval : validate_ticker "AAPL" = true := by decide
  have hpre : pre_state s 0 " aapl " true =
      { s with valid_tickers := s.valid_tickers ++ ["AAPL"],
               weights := s.weights ++ [("AAPL", 0)],
               ticker_data := dset s.ticker_data 0 ⟨true, "AAPL", true⟩ } := by
    unfold pre_state
    rw [hu, clear_stage_of_not_mem s _ _ hv hw,
      validate_stage_valid_true s _ hval (by decide),
      accept_stage_of_not_mem s _ hv hw]
    unfold store_stage
    simp [hval]
  have hweights : (handle_ticker_change s 0 " aapl " true).1.weights =
      normalizeW (s.valid_tickers ++ ["AAPL"]) (s.weights ++ [("AAPL", 0)]) := by
    rw [handle_fst_eq, hpre]
    rfl
  refine ⟨?_, ?_, hweights, ?_⟩
  · rw [handle_snd_eq, hu, clear_stage_of_not_mem s _ _ hv hw,
      validate_stage_valid_true s _ hval (by decide)]
  · rw [handle_fst_eq, normalize_weights_data_eq, hpre]
    exact dlookup_dset_self _ _ _
  · intro h1 h2
    rw [hweights, h1, h2]
    norm_num [normalizeW, wsum, dset]

/-- Witness for C6 at the empty initial state: " aapl " commits AAPL with
weight 100 and no error. -/
theorem c6_validation_accepts_and_commits_witness :
    (handle_ticker_change initState 0 " aapl " true).2 = [] ∧
    dlookup (handle_ticker_change initState 0 " aapl " true).1.ticker_data 0 =
      some ⟨true, "AAPL", true⟩ ∧
    (handle_ticker_change initState 0 " aapl " true).1.weights = [("AAPL", 100)] := by
  have h := c6_validation_accepts_and_commits initState (by decide) (by decide)
  exact ⟨h.1, h.2.1, h.2.2.2 rfl rfl⟩

/-! ## Claim C8 -/

/-- C8 counterexample: in app.py, adding a new ticker GOOG to the selected
tuple resets ALL weights to an equal split, destroying the previously
entered 70/30 proportions — the 70:30 ratio is not preserved. -/
theorem c8_app_reset_destroys_proportions :
    (reset_weights_on_ticker_change (some ["AAPL", "MSFT"]) ["AAPL", "MSFT", "GOOG"]
      [("AAPL", 70), ("MSFT", 30)]).1
        = [("AAPL", 100 / 3), ("MSFT", 100 / 3), ("GOOG", 100 / 3)] ∧
    (70 : ℚ) / 30 ≠ (100 / 3 : ℚ) / (100 / 3) := by
  constructor
  · norm_num +decide [reset_weights_on_ticker_change, dset]
  · norm_num

/-- C8 amended (holds for app_v3's handle_ticker_change): committing a new
valid Symbol into a slot inserts it with weight 0 and rescales every
existing entry uniformly by 100/total (hence preserves all relative
proportions, and leaves values literally unchanged when the dict already
summed to 100); app.py's reset block, by contrast, resets all weights to an
equal split whenever the selected-ticker tuple changes. -/
theorem c8_new_symbol_preserves_proportions (s : AppState) (i : Nat) (raw : String)
    (hval : validate_ticker (upper (strip raw)) = true)
    (hv : upper (strip raw) ∉ s.valid_tickers)
    (hw : upper (strip raw) ∉ dkeys s.weights)
    (htot : wsum s.weights ≠ 0) :
    dlookup (handle_ticker_change s i raw true).1.weights (upper (strip raw)) =
      some 0 ∧
    ∀ k v, dlookup s.weights k = some v →
      dlookup (handle_ticker_change s i raw true).1.weights k =
        some (v / wsum s.weights * 100) := by
  have ht : upper (strip raw) ≠ "" := by
    intro h
    rw [h] at hval
    exact absurd hval (by decide)
  have hpre : pre_state s i raw true =
      { s with valid_tickers := s.valid_tickers ++ [upper (strip raw)],
               weights := s.weights ++ [(upper (strip raw), 0)],
               ticker_data :=
                 dset s.ticker_data i ⟨true, upper (strip raw), true⟩ } := by
    unfold pre_state
    rw [clear_stage_of_not_mem s _ _ hv hw, validate_stage_valid_true s _ hval ht,
      accept_stage_of_not_mem s _ hv hw]
    unfold store_stage
    simp [hval]
  have htot' : wsum (s.weights ++ [(upper (strip raw), 0)]) = wsum s.weights := by
    rw [wsum_append]
    simp [wsum]
  have hweights : (handle_ticker_change s i raw true).1.weights =
      (s.weights ++ [(upper (strip raw), 0)]).map
        (fun p : String × ℚ => (p.1, p.2 / wsum s.weights * 100)) := by
    rw [handle_fst_eq, hpre]
    show normalizeW (s.valid_tickers ++ [upper (strip raw)])
      (s.weights ++ [(upper (strip raw), 0)]) = _
    rw [normalizeW_of_ne _ _ (by rw [htot']; exact htot), htot']
  constructor
  · rw [hweights, dlookup_map_value _ (fun x => x / wsum s.weights * 100),
      dlookup_append_of_none _ ((dlookup_eq_none_iff _ _).mpr hw)]
    simp [dlookup]
  · intro k v hkv
    rw [hweights, dlookup_map_value _ (fun x => x / wsum s.weights * 100),
      dlookup_append_of_some _ hkv]
    rfl

/-- Witness for C8 (amended) : from a normalized two-slot state AAPL:70,
MSFT:30, committing " goog " into slot 2 gives GOOG weight 0 and keeps
AAPL at exactly 70. -/
theorem c8_new_symbol_preserves_proportions_witness :
    dlookup (handle_ticker_change
      ⟨[(0, ⟨true, "AAPL", true⟩), (1, ⟨true, "MSFT", true⟩)],
       ["AAPL", "MSFT"], [("AAPL", 70), ("MSFT", 30)]⟩ 2 " goog " true).1.weights
      "GOOG" = some 0 ∧
    dlookup (handle_ticker_change
      ⟨[(0, ⟨true, "AAPL", true⟩), (1, ⟨true, "MSFT", true⟩)],
       ["AAPL", "MSFT"], [("AAPL", 70), ("MSFT", 30)]⟩ 2 " goog " true).1.weights
      "AAPL" = some 70 := by
  have h := c8_new_symbol_preserves_proportions
    ⟨[(0, ⟨true, "AAPL", true⟩), (1, ⟨true, "MSFT", true⟩)],
     ["AAPL", "MSFT"], [("AAPL", 70), ("MSFT", 30)]⟩ 2 " goog "
    (by decide) (by decide) (by decide) (by norm_num [wsum])
  have hu : upper (strip " goog ") = "GOOG" := by decide
  rw [hu] at h
  refine ⟨h.1, ?_⟩
  have h2 := h.2 "AAPL" 70 (by decide)
  norm_num [wsum] at h2
  exact h2

/-! ## Claim C2 -/

/-- C2: registry-consistency violation in app_v3's handle_ticker_change.
Starting from the empty state, commit AAPL into slot 0 and then edit slot 0
to MSFT: the resulting state still carries AAPL in valid_tickers and an
AAPL allocation entry with weight 100, yet the only slot record holds
MSFT — the "clear invalid data" block removed the incoming ticker instead
of the slot's previous one, leaving a stale allocation. -/
theorem c2_stale_entry_after_edit :
    (handle_ticker_change (handle_ticker_change initState 0 "AAPL" true).1
        0 "MSFT" true).1.weights = [("AAPL", 100), ("MSFT", 0)] ∧
    (handle_ticker_change (handle_ticker_change initState 0 "AAPL" true).1
        0 "MSFT" true).1.valid_tickers = ["AAPL", "MSFT"] ∧
    (handle_ticker_change (handle_ticker_change initState 0 "AAPL" true).1
        0 "MSFT" true).1.ticker_data = [(0, ⟨true, "MSFT", true⟩)] := by
  refine ⟨?_, ?_, ?_⟩ <;>
    norm_num +decide [handle_ticker_change, clear_stage, validate_stage, accept_stage,
      store_stage, normalize_weights, normalizeW, wsum, dset, derase, dlookup, dcontains,
      initState, (by decide : upper (strip "AAPL") = "AAPL"),
      (by decide : upper (strip "MSFT") = "MSFT")]

/-! ## Claim C3 -/

/-- C3: disabling a slot does NOT remove its allocation in app_v3. From the
state where slots 0 and 1 hold AAPL (60) and MSFT (40), unchecking slot 0's
checkbox (handle_ticker_change with enabled = false) leaves the weights dict
unchanged at AAPL:60, MSFT:40 — not the MSFT:100 the claim requires — even
though the handler records the slot as no longer valid. -/
theorem c3_disable_keeps_allocation :
    (handle_ticker_change
      ⟨[(0, ⟨true, "AAPL", true⟩), (1, ⟨true, "MSFT", true⟩)],
       ["AAPL", "MSFT"], [("AAPL", 60), ("MSFT", 40)]⟩ 0 "AAPL" false).1.weights
      = [("AAPL", 60), ("MSFT", 40)] ∧
    (handle_ticker_change
      ⟨[(0, ⟨true, "AAPL", true⟩), (1, ⟨true, "MSFT", true⟩)],
       ["AAPL", "MSFT"], [("AAPL", 60), ("MSFT", 40)]⟩ 0 "AAPL" false).1.ticker_data
      = [(0, ⟨false, "AAPL", false⟩), (1, ⟨true, "MSFT", true⟩)] ∧
    [("AAPL", (60 : ℚ)), ("MSFT", 40)] ≠ [("MSFT", 100)] := by
  refine ⟨?_, ?_, by simp⟩ <;>
    norm_num +decide [handle_ticker_change, clear_stage, validate_stage, accept_stage,
      store_stage, normalize_weights, normalizeW, wsum, dset, derase, dlookup, dcontains,
      (by decide : upper (strip "AAPL") = "AAPL")]

/-! ## Claim C7 -/

/-- C7 counterexample: update_weight_from_text on a Symbol absent from the
weights dict is not a no-op: with an empty dict and parsed text 50, a new
entry AAPL with weight 50 is inserted. -/
theorem c7_unknown_symbol_not_noop :
    dlookup ([] : List (String × ℚ)) "AAPL" = none ∧
    (update_weight_from_text [] "AAPL" (some 50)).1 = [("AAPL", 50)] ∧
    (update_weight_from_text [] "AAPL" (some 50)).1 ≠ [] := by
  refine ⟨rfl, rfl, ?_⟩
  simp [update_weight_from_text, dset]

/-- C7 amended: update_weight_from_text on a Symbol not present in the
weights dict does not crash (it is a total function) and surfaces no error,
but rather than leaving the map unchanged it inserts the clamped value as a
new entry for the unknown Symbol; all other entries are untouched, and a
failed parse (the except branch) leaves the dict unchanged. -/
theorem c7_unknown_symbol_inserts (w : List (String × ℚ)) (t : String) (v : ℚ)
    (h : dlookup w t = none) :
    (update_weight_from_text w t (some v)).1 = w ++ [(t, clampQ v)] ∧
    (update_weight_from_text w t none).1 = w := by
  refine ⟨?_, rfl⟩
  show dset w t (if v < 0 then 0 else if v > 100 then 100 else v) =
    w ++ [(t, clampQ v)]
  exact dset_eq_append w t _ ((dlookup_eq_none_iff w t).mp h)

/-- Witness for C7 (amended) : editing unknown Symbol AAPL to 150 in a dict
holding only MSFT appends AAPL with the clamped value, and a failed parse
changes nothing. -/
theorem c7_unknown_symbol_inserts_witness :
    (update_weight_from_text [("MSFT", 40)] "AAPL" (some 150)).1 =
      [("MSFT", (40 : ℚ))] ++ [("AAPL", clampQ 150)] ∧
    (update_weight_from_text [("MSFT", (40 : ℚ))] "AAPL" none).1 = [("MSFT", 40)] :=
  c7_unknown_symbol_inserts [("MSFT", 40)] "AAPL" 150 (by decide)

end Alloc
